import Mathlib

/-!
Shallow embedding of the qoonityV2 push pipeline (src/github.py) and the
LLM completion extraction (src/main.py), with theorems checking the
specification's claims against it.

Conventions of the embedding:
* Python `str` values are Lean `String`s; the regex scan works over
  `List Char`.
* Python `bytes` are `List Nat` (each entry a byte value).
* Python float arithmetic in `_is_binary` is modelled with exact
  rationals (`ℚ`).
* Network calls and the ZIP library are oracles packaged in an
  environment record; the control flow around them is translated
  line by line from the source.
-/

namespace Qoonity

/-! ### Character classes used by the regex `(authKey\s*=\s*)(["'].*?["']|\S+)`

`isSpaceCh` is Python regex `\s` restricted to ASCII; `isQuoteCh` is the
character class `["']`; `.` in the non-greedy quoted alternative matches
any character except a newline. -/

def isSpaceCh (c : Char) : Bool :=
  c = ' ' || c = '\t' || c = '\n' || c = '\r' || c = '\x0b' || c = '\x0c'

def isQuoteCh (c : Char) : Bool :=
  c = '"' || c = '\''

/-- The literal identifier `authKey` (the `sensitive_var` of the source). -/
def authKeyChars : List Char := "authKey".toList

/-- Scan for the closing quote of the non-greedy quoted alternative
`["'].*?["']`: consume characters up to and including the first quote
character, failing on a newline (`.` does not match `\n`) or at end of
input.  Returns the consumed characters (ending in the closing quote)
and the remainder. -/
def scanQuoted : List Char → Option (List Char × List Char)
  | [] => none
  | c :: rest =>
    if isQuoteCh c then some ([c], rest)
    else if c = '\n' then none
    else
      match scanQuoted rest with
      | some (body, r) => some (c :: body, r)
      | none => none

/-- Attempt to match the pattern `(authKey\s*=\s*)(["'].*?["']|\S+)` at the
start of `s`.  On success returns `(group1, group2, rest)` where
`group1` is the preserved left-hand side `authKey\s*=\s*`, `group2` the
matched value and `rest` the unconsumed suffix.  Greedy `\s*` runs need
no backtracking because the character required after each run (`=`,
resp. the start of the value) is never whitespace; the alternation
tries the quoted alternative first, exactly as Python `re` does. -/
def matchGroup1 (s s3 : List Char) : List Char :=
  authKeyChars ++ (s.drop 7).takeWhile isSpaceCh ++ '=' :: s3.takeWhile isSpaceCh

def matchAt (s : List Char) : Option (List Char × List Char × List Char) :=
  if s.take 7 = authKeyChars then
    match (s.drop 7).dropWhile isSpaceCh with
    | '=' :: s3 =>
      match s3.dropWhile isSpaceCh with
      | [] => none
      | c :: s5 =>
        if isQuoteCh c then
          match scanQuoted s5 with
          | some (body, rest) => some (matchGroup1 s s3, c :: body, rest)
          | none =>
            some (matchGroup1 s s3, c :: s5.takeWhile (fun x => !isSpaceCh x),
                  s5.dropWhile (fun x => !isSpaceCh x))
        else
          some (matchGroup1 s s3, c :: s5.takeWhile (fun x => !isSpaceCh x),
                s5.dropWhile (fun x => !isSpaceCh x))
    | _ => none
  else none

/-- One step of `re.sub`: replace the leftmost match (keeping group 1 and
substituting `repl` for group 2), then continue after it; characters
before the leftmost match are copied verbatim.  `fuel` bounds the
recursion; `fuel > s.length` always suffices because every step
consumes at least one character. -/
def subAllGo (repl : List Char) : Nat → List Char → List Char
  | 0, _ => []
  | fuel + 1, s =>
    match matchAt s with
    | some (g1, _, rest) => g1 ++ repl ++ subAllGo repl fuel rest
    | none =>
      match s with
      | [] => []
      | c :: cs => c :: subAllGo repl fuel cs

/-- `pattern.sub(r'\1' + repl, s)` for the fixed pattern. -/
def subAll (repl : List Char) (s : List Char) : List Char :=
  subAllGo repl (s.length + 1) s

/-- The `replacements` table of `_clean_code_content`, keyed by the
file-extension hint (`dict.get` semantics: `none` when absent). -/
def replacements (file_extension : String) : Option String :=
  match file_extension with
  | ".kt" => some "System.getenv(\"REPLACEMENT_KEY\")"
  | ".java" => some "System.getenv(\"REPLACEMENT_KEY\")"
  | ".py" => some "os.getenv(\"REPLACEMENT_KEY\")"
  | ".js" => some "process.env.REPLACEMENT_KEY"
  | ".ts" => some "process.env.REPLACEMENT_KEY"
  | _ => none

/-- `GitHubManager._clean_code_content`: substitute the environment-lookup
expression for the matched value when the extension is in the table,
otherwise return the content unchanged. -/
def clean_code_content (content : String) (file_extension : String) : String :=
  match replacements file_extension with
  | some repl => (subAll repl.toList content.toList).asString
  | none => content

/-- The byte predicate of `_is_binary`'s list comprehension:
printable ASCII (32 to 127 inclusive) or tab, newline, carriage return. -/
def isTextByte (b : Nat) : Bool :=
  (32 ≤ b && b ≤ 127) || b = 9 || b = 10 || b = 13

/-- `GitHubManager._is_binary`: null byte forces binary; otherwise binary
when the fraction of text bytes is below 0.7; empty content is not
binary.  Python's float division is modelled with exact rationals. -/
def is_binary (content : List Nat) : Bool :=
  if 0 ∈ content then true
  else if content = [] then false
  else decide (((content.countP isTextByte : ℚ) / content.length) < 7 / 10)

/-- Python `path.split('/')`, processed from the right: returns the first
segment paired with the remaining segments. -/
def splitSlashAux : List Char → List Char × List (List Char)
  | [] => ([], [])
  | c :: rest =>
    match splitSlashAux rest with
    | (seg, segs) => if c = '/' then ([], seg :: segs) else (c :: seg, segs)

/-- Python `path.split('/')`: always a non-empty list of segments. -/
def splitSlash (s : List Char) : List (List Char) :=
  (splitSlashAux s).1 :: (splitSlashAux s).2

/-- `GitHubManager._clean_file_path`: drop the first `/`-separated segment
when it equals the repository name, rejoining the rest with `'/'.join`;
the `[]` arm mirrors the falsy-`parts` guard (unreachable, as Python
`split` never returns an empty list). -/
def clean_file_path (path : String) (repo_name : String) : String :=
  match splitSlash path.toList with
  | [] => path
  | p0 :: rest =>
    if p0 = repo_name.toList then (List.intercalate ['/'] rest).asString else path

/-! ### Specification-side description of one pattern match

`IsLhs`/`IsValue` render the claim's reading of the pattern: the
preserved left-hand side `authKey`, optional whitespace, `=`, optional
whitespace; and a value that is a quoted string literal (non-greedy, so
its interior holds no quote and no newline) or a non-empty
whitespace-free token.  `Subst repl s t` says `t` is `s` with every
such match's value replaced by `repl`, all other text copied
verbatim. -/

def IsLhs (g1 : List Char) : Prop :=
  ∃ ws1 ws2, g1 = authKeyChars ++ ws1 ++ '=' :: ws2 ∧
    (∀ c ∈ ws1, isSpaceCh c = true) ∧ (∀ c ∈ ws2, isSpaceCh c = true)

def IsValue (g2 : List Char) : Prop :=
  (∃ q inner q2, g2 = q :: (inner ++ [q2]) ∧ isQuoteCh q = true ∧
     isQuoteCh q2 = true ∧ ∀ c ∈ inner, isQuoteCh c = false ∧ c ≠ '\n')
  ∨ (g2 ≠ [] ∧ ∀ c ∈ g2, isSpaceCh c = false)

def MatchesAt (s : List Char) : Prop :=
  ∃ g1 g2 r, s = g1 ++ g2 ++ r ∧ IsLhs g1 ∧ IsValue g2

inductive Subst (repl : List Char) : List Char → List Char → Prop
  | nil : Subst repl [] []
  | copy {c : Char} {s t : List Char} : ¬ MatchesAt (c :: s) →
      Subst repl s t → Subst repl (c :: s) (c :: t)
  | subst {g1 g2 s t : List Char} : IsLhs g1 → IsValue g2 →
      Subst repl s t → Subst repl (g1 ++ g2 ++ s) (g1 ++ repl ++ t)

/-! ### The push pipeline `push_zip_to_repo`

Network calls and ZIP parsing are oracles collected in `PushEnv`; the
surrounding control flow is translated statement by statement from the
source.  Observable effects (whether `create_repository` was called,
which entries reached `_process_file`, the two counters, and the
return value or escaping exception) are gathered in a `PushTrace`. -/

/-- One archive entry: `zipfile.ZipInfo`'s name and directory flag. -/
structure ZipEntry where
  filename : String
  is_dir : Bool
deriving DecidableEq, Repr

/-- Behaviour of one `_process_file` call: it either returns a boolean
(the upload outcome) or raises an exception. -/
inductive ProcessOutcome where
  | ok (success : Bool)
  | exn (message : String)
deriving DecidableEq, Repr

/-- Oracles for the external world of one `push_zip_to_repo` call:
the result of parsing `zip_content` (`none` models `BadZipFile`), the
result of `create_repository` (`none` models a failed creation), and
the behaviour of `_process_file` on each entry. -/
structure PushEnv where
  zipEntries : Option (List ZipEntry)
  createRepoUrl : Option String
  processFile : ZipEntry → ProcessOutcome

/-- How a `push_zip_to_repo` call ends: a returned boolean, or a
`BadZipFile` escaping from the first (uncovered) ZIP open. -/
inductive PushResult where
  | raisedBadZip
  | returned (b : Bool)
deriving DecidableEq, Repr

/-- Observable behaviour of one `push_zip_to_repo` call. -/
structure PushTrace where
  repoCreateAttempted : Bool
  processedFiles : List ZipEntry
  successCount : Nat
  errorCount : Nat
  result : PushResult
deriving DecidableEq, Repr

/-- Is the entry attempted by the loop body: not a directory, and its
cleaned path is non-empty? -/
def entryEligible (repo_name : String) (e : ZipEntry) : Bool :=
  !e.is_dir && clean_file_path e.filename repo_name ≠ ""

/-- The body of the `for file_info in zip_ref.infolist()` loop, threading
`(success_count, error_count, processed)`.  When `status_container` is
falsy, `status_placeholder` was never assigned, so evaluating the
arguments of `_process_file` raises `UnboundLocalError` inside the
per-entry `try`: the entry is counted as an error and `_process_file`
is never entered.  Any exception raised by `_process_file` itself is
likewise caught and counted as an error, and iteration continues. -/
def pushStep (env : PushEnv) (status_container : Bool) (repo_name : String)
    (st : Nat × Nat × List ZipEntry) (e : ZipEntry) : Nat × Nat × List ZipEntry :=
  let (succ, err, procd) := st
  if e.is_dir then (succ, err, procd)
  else if clean_file_path e.filename repo_name = "" then (succ, err, procd)
  else if status_container then
    match env.processFile e with
    | .ok true => (succ + 1, err, procd ++ [e])
    | .ok false => (succ, err + 1, procd ++ [e])
    | .exn _ => (succ, err + 1, procd ++ [e])
  else (succ, err + 1, procd)

/-- `GitHubManager.push_zip_to_repo`.  The first ZIP open (the counting
pass) sits outside the `try`, so an invalid archive raises before
`create_repository` is reached; a falsy `create_repository` result
(`None`, or an empty URL string) returns `False` before the loop;
otherwise the loop runs over all entries and the function returns
`True`. -/
def push_zip_to_repo (env : PushEnv) (status_container : Bool)
    (repo_name : String) : PushTrace :=
  match env.zipEntries with
  | none => ⟨false, [], 0, 0, .raisedBadZip⟩
  | some entries =>
    match env.createRepoUrl with
    | none => ⟨true, [], 0, 0, .returned false⟩
    | some url =>
      if url = "" then ⟨true, [], 0, 0, .returned false⟩
      else
        let st := entries.foldl (pushStep env status_container repo_name) (0, 0, [])
        ⟨true, st.2.2, st.1, st.2.1, .returned true⟩

/-! ### `get_completion` (src/main.py) -/

/-- A `toolUse` block's payload: its structured `input` dict. -/
structure ToolUseBlock where
  input : List (String × String)
deriving DecidableEq, Repr

/-- One content block of the model reply; `toolUse = none` models a block
without a `'toolUse'` key (e.g. a plain text block). -/
structure ContentBlock where
  toolUse : Option ToolUseBlock
deriving DecidableEq, Repr

/-- `response['output']['message']`: its list of content blocks. -/
structure Message where
  content : List ContentBlock
deriving DecidableEq, Repr

/-- What `bedrock.converse` does: raise a `ClientError` or return a
message. -/
inductive ConverseResult where
  | clientError (message : String)
  | output (message : Message)
deriving DecidableEq, Repr

/-- How a `get_completion` call ends: `None` (a caught `ClientError`),
the tool input dict, the synthesized `generic_request` dict wrapping
the raw message, or an uncaught `TypeError` from subscripting `None`. -/
inductive CompletionResult where
  | noResponse
  | toolInput (d : List (String × String))
  | genericRequest (raw : Message)
  | raisedTypeError
deriving DecidableEq, Repr

/-- `get_completion` after the `bedrock.converse` call: extract the first
content block with a `'toolUse'` key (`next(..., None)`); subscripting
the `None` default raises `TypeError`, which only `ClientError` —
not this — is caught; a present `input` dict is returned when it has a
`"response"` key, else the `generic_request` wrap of the raw message. -/
def get_completion (r : ConverseResult) : CompletionResult :=
  match r with
  | .clientError _ => .noResponse
  | .output msg =>
    match msg.content.find? (fun b => b.toolUse.isSome) with
    | none => .raisedTypeError
    | some b =>
      match b.toolUse with
      | none => .raisedTypeError
      | some tu =>
        if (tu.input.map Prod.fst).contains "response" then .toolInput tu.input
        else .genericRequest msg
/-- Did `_process_file` report success for this entry? -/
def entrySucceeds (env : PushEnv) (e : ZipEntry) : Bool :=
  decide (env.processFile e = ProcessOutcome.ok true)


/-! ### Structural lemmas about the match engine -/

theorem quote_not_space {c : Char} (h : isQuoteCh c = true) : isSpaceCh c = false := by
  rcases Bool.or_eq_true_iff.mp h with h1 | h1 <;>
    simp only [decide_eq_true_eq] at h1 <;> subst h1 <;> decide

theorem takeWhile_eq_of {p : Char → Bool} {u : List Char} {c : Char} (t : List Char)
    (hu : ∀ x ∈ u, p x = true) (hc : p c = false) :
    (u ++ c :: t).takeWhile p = u := by
  induction u with
  | nil => simp [List.takeWhile, hc]
  | cons a u ih =>
    have ha : p a = true := hu a (by simp)
    simp only [List.cons_append, List.takeWhile, ha]
    exact congrArg (a :: ·) (ih fun x hx => hu x (by simp [hx]))

theorem dropWhile_eq_of {p : Char → Bool} {u : List Char} {c : Char} (t : List Char)
    (hu : ∀ x ∈ u, p x = true) (hc : p c = false) :
    (u ++ c :: t).dropWhile p = c :: t := by
  induction u with
  | nil => simp [List.dropWhile, hc]
  | cons a u ih =>
    have ha : p a = true := hu a (by simp)
    simp only [List.cons_append, List.dropWhile, ha]
    exact ih fun x hx => hu x (by simp [hx])

theorem dropWhile_head_false {p : Char → Bool} :
    ∀ {l : List Char} {c : Char} {cs : List Char},
      l.dropWhile p = c :: cs → p c = false := by
  intro l
  induction l with
  | nil => intro c cs h; simp [List.dropWhile] at h
  | cons a l ih =>
    intro c cs h
    by_cases ha : p a
    · exact ih (by simpa [List.dropWhile, ha] using h)
    · rw [List.dropWhile_cons_of_neg ha] at h
      cases h
      exact Bool.eq_false_iff.mpr ha

theorem scanQuoted_spec {s body r : List Char} (h : scanQuoted s = some (body, r)) :
    s = body ++ r ∧ ∃ inner q, body = inner ++ [q] ∧ isQuoteCh q = true ∧
      ∀ c ∈ inner, isQuoteCh c = false ∧ c ≠ '\n' := by
  induction s generalizing body r with
  | nil => simp [scanQuoted] at h
  | cons c rest ih =>
    rw [scanQuoted] at h
    by_cases hq : isQuoteCh c
    · rw [if_pos hq] at h
      injection h with h
      injection h with hb hr
      subst hb; subst hr
      exact ⟨rfl, [], c, rfl, hq, by simp⟩
    · rw [if_neg hq] at h
      by_cases hn : c = '\n'
      · rw [if_pos hn] at h; cases h
      · rw [if_neg hn] at h
        cases hrec : scanQuoted rest with
        | none => rw [hrec] at h; cases h
        | some v =>
          obtain ⟨body0, r0⟩ := v
          rw [hrec] at h
          injection h with h
          injection h with hb hr
          subst hr
          obtain ⟨happ, inner, q, hbody, hqq, hinner⟩ := ih hrec
          refine ⟨?_, c :: inner, q, ?_, hqq, ?_⟩
          · rw [← hb, happ]; rfl
          · rw [← hb, hbody]; rfl
          · intro x hx
            rcases List.mem_cons.mp hx with hx | hx
            · subst hx; exact ⟨Bool.eq_false_iff.mpr hq, hn⟩
            · exact hinner x hx

theorem take7_append (t : List Char) : (authKeyChars ++ t).take 7 = authKeyChars := rfl

theorem drop7_append (t : List Char) : (authKeyChars ++ t).drop 7 = t := rfl

theorem eq_char_not_space : isSpaceCh '=' = false := rfl

theorem matchAt_sound {s g1 g2 rest : List Char}
    (h : matchAt s = some (g1, g2, rest)) :
    s = g1 ++ g2 ++ rest ∧ IsLhs g1 ∧ IsValue g2 := by
  rw [matchAt] at h
  split at h
  case isFalse => cases h
  case isTrue h7 =>
    split at h
    case h_2 => cases h
    case h_1 s3 heq1 =>
      split at h
      case h_1 => cases h
      case h_2 c s5 heq2 =>
      have hws1 : ∀ x ∈ (s.drop 7).takeWhile isSpaceCh, isSpaceCh x = true :=
        fun x hx => List.mem_takeWhile_imp hx
      have hws2 : ∀ x ∈ s3.takeWhile isSpaceCh, isSpaceCh x = true :=
        fun x hx => List.mem_takeWhile_imp hx
      have hsplit : s = authKeyChars ++ ((s.drop 7).takeWhile isSpaceCh ++ '=' :: s3) := by
        conv_lhs => rw [← List.take_append_drop 7 s]
        rw [h7]
        congr 1
        conv_lhs => rw [← List.takeWhile_append_dropWhile (p := isSpaceCh) (l := s.drop 7)]
        rw [heq1]
      have hs3 : s3 = s3.takeWhile isSpaceCh ++ c :: s5 := by
        conv_lhs => rw [← List.takeWhile_append_dropWhile (p := isSpaceCh) (l := s3)]
        rw [heq2]
      split at h
      case isTrue hq =>
        split at h
        case h_1 body rest0 hscan =>
          injection h with h
          injection h with hg1 h
          injection h with hg2 hrest
          subst hg1 hg2 hrest
          obtain ⟨hs5, inner, q2, hbody, hq2, hinner⟩ := scanQuoted_spec hscan
          refine ⟨?_, ⟨_, _, rfl, hws1, hws2⟩, Or.inl ⟨c, inner, q2, by rw [hbody], hq, hq2, hinner⟩⟩
          conv_lhs => rw [hsplit, hs3, hs5]
          simp [matchGroup1, List.append_assoc]
        case h_2 hscan =>
          injection h with h
          injection h with hg1 h
          injection h with hg2 hrest
          subst hg1 hg2 hrest
          refine ⟨?_, ⟨_, _, rfl, hws1, hws2⟩, Or.inr ⟨by simp, ?_⟩⟩
          · conv_lhs =>
              rw [hsplit, hs3,
                ← List.takeWhile_append_dropWhile (p := fun x => !isSpaceCh x) (l := s5)]
            simp [matchGroup1, List.append_assoc]
          · intro x hx
            rcases List.mem_cons.mp hx with hx | hx
            · subst hx; exact quote_not_space hq
            · simpa using List.mem_takeWhile_imp hx
      case isFalse hq =>
        injection h with h
        injection h with hg1 h
        injection h with hg2 hrest
        subst hg1 hg2 hrest
        refine ⟨?_, ⟨_, _, rfl, hws1, hws2⟩, Or.inr ⟨by simp, ?_⟩⟩
        · conv_lhs =>
            rw [hsplit, hs3,
              ← List.takeWhile_append_dropWhile (p := fun x => !isSpaceCh x) (l := s5)]
          simp [matchGroup1, List.append_assoc]
        · intro x hx
          rcases List.mem_cons.mp hx with hx | hx
          · subst hx; exact dropWhile_head_false heq2
          · simpa using List.mem_takeWhile_imp hx

theorem matchAt_none_not_matches {s : List Char} (h : matchAt s = none) :
    ¬ MatchesAt s := by
  intro hm
  obtain ⟨g1, g2, r, hs, hlhs, hval⟩ := hm
  obtain ⟨ws1, ws2, hg1, hws1, hws2⟩ := hlhs
  obtain ⟨d, t, hg2, hd⟩ : ∃ d t, g2 = d :: t ∧ isSpaceCh d = false := by
    rcases hval with ⟨q, inner, q2, hq, hqq, -, -⟩ | ⟨hne, hall⟩
    · exact ⟨q, inner ++ [q2], hq, quote_not_space hqq⟩
    · cases g2 with
      | nil => exact absurd rfl hne
      | cons d t => exact ⟨d, t, rfl, hall d (by simp)⟩
  subst hg1 hg2
  have hs2 : s = authKeyChars ++ (ws1 ++ '=' :: (ws2 ++ d :: (t ++ r))) := by
    rw [hs]; simp [List.append_assoc]
  rw [matchAt] at h
  split at h
  case isFalse h7 =>
    exact h7 (by rw [hs2]; exact take7_append _)
  case isTrue h7 =>
    split at h
    case h_2 x heq1 =>
      rw [hs2, drop7_append, dropWhile_eq_of _ hws1 eq_char_not_space] at heq1
      exact heq1 _ rfl
    case h_1 s3 heq1 =>
      rw [hs2, drop7_append, dropWhile_eq_of _ hws1 eq_char_not_space] at heq1
      injection heq1 with heq hs3
      split at h
      case h_2 c s5 heq2 =>
        split at h
        case isTrue => split at h <;> cases h
        case isFalse => cases h
      case h_1 heq2 =>
        rw [← hs3, dropWhile_eq_of _ hws2 hd] at heq2
        cases heq2

theorem matchAt_rest_length {s g1 g2 rest : List Char}
    (h : matchAt s = some (g1, g2, rest)) : rest.length < s.length := by
  obtain ⟨hs, hg1, -⟩ := matchAt_sound h
  obtain ⟨ws1, ws2, hg1eq, -, -⟩ := hg1
  rw [hs, hg1eq]
  simp [authKeyChars]
  omega

/-! ### Unfolding and fuel-independence of `subAll` -/

theorem subAllGo_congr (repl : List Char) :
    ∀ n m s, s.length < n → s.length < m → subAllGo repl n s = subAllGo repl m s := by
  intro n
  induction n with
  | zero => intro m s h; omega
  | succ n ih =>
    intro m s hn hm
    cases m with
    | zero => omega
    | succ m =>
      simp only [subAllGo]
      cases hmt : matchAt s with
      | some v =>
        obtain ⟨g1, g2, rest⟩ := v
        have hlt := matchAt_rest_length hmt
        exact congrArg (fun l => g1 ++ repl ++ l) (ih m rest (by omega) (by omega))
      | none =>
        cases s with
        | nil => rfl
        | cons c cs =>
          exact congrArg (c :: ·)
            (ih m cs (by simp only [List.length_cons] at hn; omega)
              (by simp only [List.length_cons] at hm; omega))

theorem subAll_nil (repl : List Char) : subAll repl [] = [] := rfl

theorem subAll_some {s g1 g2 rest : List Char} (repl : List Char)
    (h : matchAt s = some (g1, g2, rest)) :
    subAll repl s = g1 ++ repl ++ subAll repl rest := by
  have hlt := matchAt_rest_length h
  cases s with
  | nil => simp [matchAt, authKeyChars] at h
  | cons c cs =>
    show subAllGo repl (cs.length + 1 + 1) (c :: cs) = _
    rw [subAllGo, h]
    show g1 ++ repl ++ subAllGo repl (cs.length + 1) rest = _
    rw [subAllGo_congr repl (cs.length + 1) (rest.length + 1) rest
      (by simpa using hlt) (by omega)]
    rfl

theorem subAll_copy {c : Char} {cs : List Char} (repl : List Char)
    (h : matchAt (c :: cs) = none) :
    subAll repl (c :: cs) = c :: subAll repl cs := by
  show subAllGo repl (cs.length + 1 + 1) (c :: cs) = _
  rw [subAllGo, h]
  rfl

/-- Every output of the substitution engine is related to its input by
`Subst`: each match's value is replaced by `repl`, the left-hand side
and everything outside the matches are copied verbatim, and no
unreplaced match position remains among the copied characters. -/
theorem subAll_isSubst (repl : List Char) (s : List Char) :
    Subst repl s (subAll repl s) := by
  generalize hn : s.length = n
  induction n using Nat.strong_induction_on generalizing s with
  | _ n ih =>
    cases hm : matchAt s with
    | some v =>
      obtain ⟨g1, g2, rest⟩ := v
      obtain ⟨hs, hlhs, hval⟩ := matchAt_sound hm
      have hlt : rest.length < n := hn ▸ matchAt_rest_length hm
      rw [subAll_some repl hm, hs]
      exact Subst.subst hlhs hval (ih rest.length hlt rest rfl)
    | none =>
      cases s with
      | nil => exact Subst.nil
      | cons c cs =>
        rw [subAll_copy repl hm]
        have hlt : cs.length < n := by rw [← hn]; simp
        exact Subst.copy (matchAt_none_not_matches hm) (ih cs.length hlt cs rfl)


/-! ### Behaviour of the upload loop -/

theorem pushLoop_true (env : PushEnv) (repo : String) :
    ∀ (es : List ZipEntry) (succ err : Nat) (procd : List ZipEntry),
      es.foldl (pushStep env true repo) (succ, err, procd) =
        (succ + (es.filter (entryEligible repo)).countP (entrySucceeds env),
         err + (es.filter (entryEligible repo)).countP (fun e => !entrySucceeds env e),
         procd ++ es.filter (entryEligible repo)) := by
  intro es
  induction es with
  | nil => intro succ err procd; simp
  | cons e es ih =>
    intro succ err procd
    rw [List.foldl_cons]
    by_cases hd : e.is_dir
    · have hel : entryEligible repo e = false := by simp [entryEligible, hd]
      rw [show pushStep env true repo (succ, err, procd) e = (succ, err, procd) by
        simp [pushStep, hd]]
      rw [ih, List.filter_cons, hel]
      simp
    · by_cases hp : clean_file_path e.filename repo = ""
      · have hel : entryEligible repo e = false := by simp [entryEligible, hd, hp]
        rw [show pushStep env true repo (succ, err, procd) e = (succ, err, procd) by
          simp [pushStep, hd, hp]]
        rw [ih, List.filter_cons, hel]
        simp
      · have hel : entryEligible repo e = true := by simp [entryEligible, hd, hp]
        cases hpf : env.processFile e with
        | ok b =>
          cases b with
          | true =>
            have hsc : entrySucceeds env e = true := by simp [entrySucceeds, hpf]
            rw [show pushStep env true repo (succ, err, procd) e =
                (succ + 1, err, procd ++ [e]) by simp [pushStep, hd, hp, hpf]]
            rw [ih, List.filter_cons, hel]
            simp [List.countP_cons, hsc]
            omega
          | false =>
            have hsc : entrySucceeds env e = false := by simp [entrySucceeds, hpf]
            rw [show pushStep env true repo (succ, err, procd) e =
                (succ, err + 1, procd ++ [e]) by simp [pushStep, hd, hp, hpf]]
            rw [ih, List.filter_cons, hel]
            simp [List.countP_cons, hsc]
            omega
        | exn m =>
          have hsc : entrySucceeds env e = false := by simp [entrySucceeds, hpf]
          rw [show pushStep env true repo (succ, err, procd) e =
              (succ, err + 1, procd ++ [e]) by simp [pushStep, hd, hp, hpf]]
          rw [ih, List.filter_cons, hel]
          simp [List.countP_cons, hsc]
          omega

theorem pushLoop_false (env : PushEnv) (repo : String) :
    ∀ (es : List ZipEntry) (succ err : Nat) (procd : List ZipEntry),
      es.foldl (pushStep env false repo) (succ, err, procd) =
        (succ, err + es.countP (entryEligible repo), procd) := by
  intro es
  induction es with
  | nil => intro succ err procd; simp
  | cons e es ih =>
    intro succ err procd
    rw [List.foldl_cons]
    by_cases hd : e.is_dir
    · have hel : entryEligible repo e = false := by simp [entryEligible, hd]
      rw [show pushStep env false repo (succ, err, procd) e = (succ, err, procd) by
        simp [pushStep, hd]]
      rw [ih, List.countP_cons, hel]
      simp
    · by_cases hp : clean_file_path e.filename repo = ""
      · have hel : entryEligible repo e = false := by simp [entryEligible, hd, hp]
        rw [show pushStep env false repo (succ, err, procd) e = (succ, err, procd) by
          simp [pushStep, hd, hp]]
        rw [ih, List.countP_cons, hel]
        simp
      · have hel : entryEligible repo e = true := by simp [entryEligible, hd, hp]
        rw [show pushStep env false repo (succ, err, procd) e = (succ, err + 1, procd) by
          simp [pushStep, hd, hp]]
        rw [ih, List.countP_cons, hel]
        simp
        omega

/-! ### Further helper lemmas -/

theorem matchAt_cons_none_of_ne {c : Char} (cs : List Char) (hc : c ≠ 'a') :
    matchAt (c :: cs) = none := by
  have hcond : ¬ ((c :: cs).take 7 = authKeyChars) := by
    intro h
    have h2 : some c = some 'a' := congrArg List.head? h
    injection h2 with h3
    exact hc h3
  rw [matchAt, if_neg hcond]

theorem subAll_append_no_a (repl : List Char) (p : List Char)
    (hp : ∀ x ∈ p, x ≠ 'a') (s : List Char) :
    subAll repl (p ++ s) = p ++ subAll repl s := by
  induction p with
  | nil => simp
  | cons c p ih =>
    rw [List.cons_append,
      subAll_copy repl (matchAt_cons_none_of_ne _ (hp c (by simp))),
      ih (fun x hx => hp x (by simp [hx]))]
    rfl

/-! ### The claims -/

/-- Claim C1: during a push over a valid archive whose repository
creation succeeded (status container present), every non-directory
entry with a non-empty cleaned path is attempted, in archive order,
whatever the other entries do; an entry whose processing raises or
reports failure only increments the error counter, and the push still
completes over all remaining entries and returns `True`. -/
theorem push_zip_to_repo_isolates_entry_failures (env : PushEnv)
    (repo url : String) (es : List ZipEntry) (hz : env.zipEntries = some es)
    (hc : env.createRepoUrl = some url) (hu : url ≠ "") :
    push_zip_to_repo env true repo =
      ⟨true, es.filter (entryEligible repo),
       (es.filter (entryEligible repo)).countP (entrySucceeds env),
       (es.filter (entryEligible repo)).countP (fun e => !entrySucceeds env e),
       .returned true⟩ := by
  simp only [push_zip_to_repo, hz, hc]
  rw [if_neg hu]
  simp only [pushLoop_true]
  simp

/-- Witness for claim C1: a push over a directory entry, an entry whose
path cleans to empty, one succeeding, one raising and one failing
entry yields one success, two errors, all three eligible entries
attempted, and `True` returned. -/
theorem push_zip_to_repo_isolates_entry_failures_witness :
    push_zip_to_repo
      ⟨some [⟨"d/", true⟩, ⟨"repo", false⟩, ⟨"a.py", false⟩,
             ⟨"b.py", false⟩, ⟨"c.py", false⟩],
       some "https://github.com/u/repo",
       fun e => if e.filename = "b.py" then .exn "boom"
                else if e.filename = "c.py" then .ok false else .ok true⟩
      true "repo" =
      ⟨true, [⟨"a.py", false⟩, ⟨"b.py", false⟩, ⟨"c.py", false⟩], 1, 2,
       .returned true⟩ :=
  (push_zip_to_repo_isolates_entry_failures _ "repo" _ _ rfl rfl
    (by decide)).trans (by decide)

/-- Claim C2: with no status container, `status_placeholder` is never
assigned, so every non-directory entry with a non-empty cleaned path
hits `UnboundLocalError` inside the per-entry `try` before
`_process_file` is invoked: every such entry is recorded as a failure,
no file is ever uploaded, the success count is 0, and the function
still returns `True`. -/
theorem push_zip_to_repo_without_container_uploads_nothing (env : PushEnv)
    (repo url : String) (es : List ZipEntry) (hz : env.zipEntries = some es)
    (hc : env.createRepoUrl = some url) (hu : url ≠ "") :
    push_zip_to_repo env false repo =
      ⟨true, [], 0, es.countP (entryEligible repo), .returned true⟩ := by
  simp only [push_zip_to_repo, hz, hc]
  rw [if_neg hu]
  simp only [pushLoop_false]
  simp

/-- Witness for claim C2: two eligible files and a directory, pushed
with no status container: zero successes, two failures, nothing
processed, `True` returned. -/
theorem push_zip_to_repo_without_container_uploads_nothing_witness :
    push_zip_to_repo
      ⟨some [⟨"d/", true⟩, ⟨"a.py", false⟩, ⟨"b.bin", false⟩],
       some "https://github.com/u/repo", fun _ => .ok true⟩
      false "repo" =
      ⟨true, [], 0, 2, .returned true⟩ :=
  (push_zip_to_repo_without_container_uploads_nothing _ "repo" _ _ rfl rfl
    (by decide)).trans (by decide)

/-- Claim C3: when `create_repository` returns no address, the push
returns `False` before the loop: no entry is processed, both counters
stay 0, and no per-file write is attempted. -/
theorem push_zip_to_repo_aborts_when_create_repository_fails (env : PushEnv)
    (sc : Bool) (repo : String) (es : List ZipEntry)
    (hz : env.zipEntries = some es) (hc : env.createRepoUrl = none) :
    push_zip_to_repo env sc repo = ⟨true, [], 0, 0, .returned false⟩ := by
  simp only [push_zip_to_repo, hz, hc]

/-- Witness for claim C3. -/
theorem push_zip_to_repo_aborts_when_create_repository_fails_witness :
    push_zip_to_repo ⟨some [⟨"a.py", false⟩], none, fun _ => .ok true⟩
      true "repo" = ⟨true, [], 0, 0, .returned false⟩ :=
  push_zip_to_repo_aborts_when_create_repository_fails _ true "repo" _ rfl rfl

/-- Claim C8: when the bytes are not a valid ZIP archive, the first
(counting) pass raises `BadZipFile` outside any handler covering it:
the push terminates with the format error before `create_repository`
is called and before any entry is touched. -/
theorem push_zip_to_repo_invalid_zip_aborts (env : PushEnv) (sc : Bool)
    (repo : String) (hz : env.zipEntries = none) :
    push_zip_to_repo env sc repo = ⟨false, [], 0, 0, .raisedBadZip⟩ := by
  simp only [push_zip_to_repo, hz]

/-- Witness for claim C8. -/
theorem push_zip_to_repo_invalid_zip_aborts_witness :
    push_zip_to_repo ⟨none, some "https://github.com/u/repo", fun _ => .ok true⟩
      true "repo" = ⟨false, [], 0, 0, .raisedBadZip⟩ :=
  push_zip_to_repo_invalid_zip_aborts _ true "repo" rfl

/-- Claim C4: `_is_binary` returns true whenever a null byte is
present; on non-empty null-free content it returns true exactly when
the fraction of printable-ASCII (32 to 127) or tab, newline,
carriage-return bytes is strictly below 0.7; and false on empty
content. -/
theorem is_binary_spec (bs : List Nat) :
    (0 ∈ bs → is_binary bs = true) ∧
    (bs ≠ [] → 0 ∉ bs →
      (is_binary bs = true ↔ 10 * bs.countP isTextByte < 7 * bs.length)) ∧
    is_binary [] = false := by
  refine ⟨fun h => by simp [is_binary, h], fun hne h0 => ?_, rfl⟩
  unfold is_binary
  rw [if_neg h0, if_neg hne, decide_eq_true_iff]
  have hn : (0 : ℚ) < bs.length := by
    have h1 := List.length_pos.mpr hne
    exact_mod_cast h1
  rw [div_lt_div_iff₀ hn (by norm_num), mul_comm]
  exact_mod_cast Iff.rfl

/-- Witness for claim C4: `[0, 65]` has a null byte and is binary;
`[65, 200, 200]` is null-free with text fraction 1/3 < 0.7. -/
theorem is_binary_spec_witness :
    is_binary [0, 65] = true ∧
    (is_binary [65, 200, 200] = true ↔
      10 * ([65, 200, 200] : List Nat).countP isTextByte <
        7 * ([65, 200, 200] : List Nat).length) :=
  ⟨(is_binary_spec [0, 65]).1 (by decide),
   (is_binary_spec [65, 200, 200]).2.1 (by decide) (by decide)⟩

/-- Claim C5: for a hint in the fixed table, `_clean_code_content`
replaces exactly the value portion of every `authKey = value` match
(quoted literal or whitespace-free token) with the hint's replacement
expression, preserving the left-hand side and all surrounding text
(`Subst`); for a hint outside the table it is the identity; and on
`authKey = "abc123"` with hint `.py` it produces
`authKey = os.getenv("REPLACEMENT_KEY")`. -/
theorem clean_code_content_spec (content ext : String) :
    (∀ repl, replacements ext = some repl →
      Subst repl.toList content.toList (clean_code_content content ext).toList) ∧
    (replacements ext = none → clean_code_content content ext = content) ∧
    clean_code_content "authKey = \"abc123\"" ".py" =
      "authKey = os.getenv(\"REPLACEMENT_KEY\")" := by
  refine ⟨?_, ?_, by decide⟩
  · intro repl h
    simp only [clean_code_content, h]
    exact subAll_isSubst repl.toList content.toList
  · intro h
    simp only [clean_code_content, h]

/-- Witness for claim C5: the `.py` substitution on the spec's example
is a `Subst`, and a `.txt` hint leaves the text unchanged. -/
theorem clean_code_content_spec_witness :
    Subst "os.getenv(\"REPLACEMENT_KEY\")".toList "authKey = \"abc123\"".toList
      (clean_code_content "authKey = \"abc123\"" ".py").toList ∧
    clean_code_content "authKey = \"abc123\"" ".txt" = "authKey = \"abc123\"" :=
  ⟨(clean_code_content_spec "authKey = \"abc123\"" ".py").1 _ rfl,
   (clean_code_content_spec "authKey = \"abc123\"" ".txt").2.1 rfl⟩

/-- Claim C6, counterexample: redaction is not idempotent.  On
`authKey = "k"!` with hint `.py` the first pass replaces the quoted
value and keeps the `!`; the second pass matches the replacement plus
`!` as one whitespace-free token and rewrites again, giving a
different string. -/
theorem clean_code_content_not_idempotent :
    clean_code_content (clean_code_content "authKey = \"k\"!" ".py") ".py" ≠
      clean_code_content "authKey = \"k\"!" ".py" := by decide

/-- Claim C6 as amended: redaction is idempotent for every file-type
hint outside the fixed table (where it is the identity); for hints in
the table a second application can rewrite text following a replaced
quoted value, so idempotence fails in general. -/
theorem clean_code_content_idempotent_outside_table (content ext : String)
    (h : replacements ext = none) :
    clean_code_content (clean_code_content content ext) ext =
      clean_code_content content ext := by
  simp only [clean_code_content, h]

/-- Witness for the amended claim C6. -/
theorem clean_code_content_idempotent_outside_table_witness :
    clean_code_content (clean_code_content "authKey = \"k\"!" ".txt") ".txt" =
      clean_code_content "authKey = \"k\"!" ".txt" :=
  clean_code_content_idempotent_outside_table "authKey = \"k\"!" ".txt" rfl

/-- Claim C7: `_clean_file_path` removes the first `/`-separated
segment (rejoining the rest with `/`) exactly when it equals the
repository name, and otherwise returns the path unchanged; in
particular `myrepo/src/App.kt` cleans to `src/App.kt` under repository
`myrepo`, and `other/App.kt` is unchanged. -/
theorem clean_file_path_spec (path repo_name : String) :
    ((splitSlash path.toList).head? = some repo_name.toList →
      clean_file_path path repo_name =
        (List.intercalate ['/'] (splitSlash path.toList).tail).asString) ∧
    ((splitSlash path.toList).head? ≠ some repo_name.toList →
      clean_file_path path repo_name = path) ∧
    clean_file_path "myrepo/src/App.kt" "myrepo" = "src/App.kt" ∧
    clean_file_path "other/App.kt" "myrepo" = "other/App.kt" := by
  refine ⟨?_, ?_, by decide, by decide⟩
  · intro h
    have h1 : (splitSlashAux path.toList).1 = repo_name.toList := by
      injection h
    show (if (splitSlashAux path.toList).1 = repo_name.toList
          then (List.intercalate ['/'] (splitSlashAux path.toList).2).asString
          else path) = _
    rw [if_pos h1]
    rfl
  · intro h
    show (if (splitSlashAux path.toList).1 = repo_name.toList
          then (List.intercalate ['/'] (splitSlashAux path.toList).2).asString
          else path) = path
    rw [if_neg]
    intro heq
    exact h (by
      rw [show (splitSlash path.toList).head? = some (splitSlashAux path.toList).1 from rfl,
        heq])

/-- Witness for claim C7. -/
theorem clean_file_path_spec_witness :
    clean_file_path "myrepo/src/App.kt" "myrepo" =
      (List.intercalate ['/'] (splitSlash "myrepo/src/App.kt".toList).tail).asString ∧
    clean_file_path "other/App.kt" "myrepo" = "other/App.kt" :=
  ⟨(clean_file_path_spec "myrepo/src/App.kt" "myrepo").1 (by decide),
   (clean_file_path_spec "other/App.kt" "myrepo").2.1 (by decide)⟩

/-- Claim C9 (code bug): on a reply whose content has no tool-use
block, `get_completion` subscripts the `None` default of
`next(..., None)` and raises `TypeError` — which is not caught, since
only `ClientError` is — instead of synthesizing the `generic_request`
wrap of the raw message; a `ClientError` is indeed caught and surfaces
as an absent response. -/
theorem get_completion_no_tool_use_raises :
    get_completion (.output ⟨[⟨none⟩]⟩) = .raisedTypeError ∧
    get_completion (.output ⟨[]⟩) = .raisedTypeError ∧
    get_completion (.clientError "err") = .noResponse :=
  ⟨rfl, rfl, rfl⟩

/-- Claim C10: the pattern is not anchored at a word boundary — for any
prefix free of the letter `a` (such as `my`), an assignment whose
identifier merely ends in `authKey` still has its value replaced,
because the scan matches the `authKey = value` substring inside the
longer identifier. -/
theorem clean_code_content_matches_inside_identifier (p : List Char)
    (hp : ∀ x ∈ p, x ≠ 'a') :
    clean_code_content (p ++ "authKey = \"secret\"".toList).asString ".py" =
      (p ++ "authKey = os.getenv(\"REPLACEMENT_KEY\")".toList).asString := by
  have hpy : clean_code_content (p ++ "authKey = \"secret\"".toList).asString ".py" =
      (subAll "os.getenv(\"REPLACEMENT_KEY\")".toList
        ((p ++ "authKey = \"secret\"".toList).asString).toList).asString := rfl
  rw [hpy, List.toList_asString, subAll_append_no_a _ p hp,
    show subAll "os.getenv(\"REPLACEMENT_KEY\")".toList "authKey = \"secret\"".toList =
      "authKey = os.getenv(\"REPLACEMENT_KEY\")".toList by decide]

/-- Witness for claim C10: `myauthKey = "secret"` is rewritten to
`myauthKey = os.getenv("REPLACEMENT_KEY")` under hint `.py`. -/
theorem clean_code_content_matches_inside_identifier_witness :
    clean_code_content ("my".toList ++ "authKey = \"secret\"".toList).asString ".py" =
      ("my".toList ++ "authKey = os.getenv(\"REPLACEMENT_KEY\")".toList).asString :=
  clean_code_content_matches_inside_identifier "my".toList (by decide)

end Qoonity
